import Mathlib

/-!
Verification of the Segmint core parsers against their specification.

The development shallowly embeds the TypeScript sources:
  * `src/blame.ts`   — `parseBlamePorcelain`, the line-attribution parser;
  * `src/git.ts`     — `parseDiff`, `parseHunks`, `extractFilePath`,
                       `splitIntoFileChunks`, `isBinaryFile`, and the
                       merge/sort/identifier logic of `getUncommittedChanges`;
  * the `group_changes` tool handler of the MCP server entrypoint.

JavaScript strings are modelled as their character lists (`List Char`); a
text split on `'\n'` becomes a `List (List Char)` of lines.  JavaScript
`number` values produced by `parseInt` on digit runs are modelled exactly
over `Nat`/`Int` (JavaScript doubles round above `2^53`; every concrete
value appearing in the theorems below is far smaller).
-/

/-- Character list of a string literal; all embedded functions work on
character lists. -/
def str (s : String) : List Char := s.data

/-- Whitespace per ECMAScript (`\s`, `String.prototype.trim`,
`parseInt` leading-space skipping): WhiteSpace and LineTerminator code
points. -/
def isJSSpace (c : Char) : Bool :=
  let n := c.toNat
  n = 9 ∨ n = 10 ∨ n = 11 ∨ n = 12 ∨ n = 13 ∨ n = 32 ∨ n = 160 ∨
  n = 0x1680 ∨ (0x2000 ≤ n ∧ n ≤ 0x200a) ∨ n = 0x2028 ∨ n = 0x2029 ∨
  n = 0x202f ∨ n = 0x205f ∨ n = 0x3000 ∨ n = 0xfeff

/-- ASCII decimal digit (`\d` in the source regexes). -/
def isDigitCh (c : Char) : Bool := 48 ≤ c.toNat ∧ c.toNat ≤ 57

/-- Lower-case hexadecimal digit (`[0-9a-f]` in the blame header regex). -/
def isHexLower (c : Char) : Bool :=
  (48 ≤ c.toNat ∧ c.toNat ≤ 57) ∨ (97 ≤ c.toNat ∧ c.toNat ≤ 102)

/-- Model of JavaScript `String.prototype.startsWith` on character lists. -/
def jsStartsWith : List Char → List Char → Bool
  | _, [] => true
  | [], _ :: _ => false
  | c :: s, p :: ps => c = p ∧ jsStartsWith s ps

/-- Model of JavaScript `String.prototype.endsWith` on character lists. -/
def jsEndsWith (s p : List Char) : Bool :=
  jsStartsWith s.reverse p.reverse

/-- Model of JavaScript `String.prototype.split("\n")`: the (never empty)
list of newline-separated segments. -/
def splitNL : List Char → List (List Char)
  | [] => [[]]
  | c :: rest =>
    if c = '\n' then [] :: splitNL rest
    else
      match splitNL rest with
      | [] => [[c]]
      | l :: ls => (c :: l) :: ls

/-- Model of JavaScript `String.prototype.trim`: strip `isJSSpace`
characters from both ends. -/
def trimJS (s : List Char) : List Char :=
  ((s.dropWhile isJSSpace).reverse.dropWhile isJSSpace).reverse

/-- Numeric value of a run of ASCII digits. -/
def digitsToNat (ds : List Char) : Nat :=
  ds.foldl (fun a c => a * 10 + (c.toNat - 48)) 0

/-- Model of JavaScript `parseInt(s, 10)`: skip leading whitespace, read an
optional sign and then a longest run of decimal digits; `none` models the
`NaN` result when no digit follows.  (JavaScript returns a double and
rounds above `2^53`; the value is modelled exactly over `Int`.) -/
def jsParseInt10 (s : List Char) : Option Int :=
  let s1 := s.dropWhile isJSSpace
  match s1 with
  | '-' :: r =>
    let d := r.takeWhile isDigitCh
    if d = [] then none else some (-(digitsToNat d : Int))
  | '+' :: r =>
    let d := r.takeWhile isDigitCh
    if d = [] then none else some (digitsToNat d : Int)
  | r =>
    let d := r.takeWhile isDigitCh
    if d = [] then none else some (digitsToNat d : Int)

/-- Decimal digit characters of a natural number. -/
def natChars (n : Nat) : List Char := (Nat.repr n).data

/-- Left-pad the decimal digits of `n` with zeros to width `w`
(`toISOString` field formatting). -/
def padNum (w n : Nat) : List Char :=
  let d := natChars n
  List.replicate (w - d.length) '0' ++ d

/-- Proleptic-Gregorian civil date of a day count relative to 1970-01-01
(the conversion `Date` performs internally); returns (year, month, day). -/
def civilFromDays (z0 : Int) : Int × Nat × Nat :=
  let z := z0 + 719468
  let era := Int.fdiv z 146097
  let doe := (z - era * 146097).toNat
  let yoe := (doe - doe / 1460 + doe / 36524 - doe / 146096) / 365
  let y : Int := (yoe : Int) + era * 400
  let doy := doe - (365 * yoe + yoe / 4 - yoe / 100)
  let mp := (5 * doy + 2) / 153
  let d := doy - (153 * mp + 2) / 5 + 1
  let m := if mp < 10 then mp + 3 else mp - 9
  (if m ≤ 2 then y + 1 else y, m, d)

/-- Model of `new Date(ms).toISOString()`: `none` models the thrown
`RangeError` when `ms` lies outside the ECMAScript time range
(`|ms| > 8.64e15`); otherwise the `YYYY-MM-DDTHH:mm:ss.sssZ` string
(expanded-year form outside years 0–9999). -/
def toISOStringMs (ms : Int) : Option (List Char) :=
  if 8640000000000000 < ms.natAbs then none
  else
    let days := Int.fdiv ms 86400000
    let msod := (Int.fmod ms 86400000).toNat
    let h := msod / 3600000
    let mi := msod % 3600000 / 60000
    let se := msod % 60000 / 1000
    let ml := msod % 1000
    let ymd := civilFromDays days
    let y := ymd.1
    let yearChars :=
      if 0 ≤ y ∧ y ≤ 9999 then padNum 4 y.toNat
      else if 0 ≤ y then '+' :: padNum 6 y.toNat
      else '-' :: padNum 6 y.natAbs
    some (yearChars ++ '-' :: padNum 2 ymd.2.1 ++ '-' :: padNum 2 ymd.2.2 ++
      'T' :: padNum 2 h ++ ':' :: padNum 2 mi ++ ':' :: padNum 2 se ++
      '.' :: padNum 3 ml ++ ['Z'])

/-! ## Attribution parser (`src/blame.ts`) -/

/-- Commit metadata of one attributed line (`BlameLine.commit` in
`src/models.ts`). -/
structure BlameCommit where
  sha : List Char
  short_sha : List Char
  author_name : List Char
  author_email : List Char
  author_time : List Char
  summary : List Char
deriving DecidableEq, Repr

/-- One attributed line (`BlameLine` in `src/models.ts`). -/
structure BlameLine where
  line_number : Nat
  content : List Char
  commit : BlameCommit
deriving DecidableEq, Repr

/-- Model of the regex `^([0-9a-f]{40})\s+(\d+)\s+(\d+)(?:\s+\d+)?$` of
`parseBlamePorcelain`: returns the captured sha, original line and final
line on a match. -/
def matchBlameHeader (l : List Char) : Option (List Char × Nat × Nat) :=
  let sha := l.take 40
  if sha.length = 40 ∧ sha.all isHexLower then
    let r0 := l.drop 40
    let s1 := r0.takeWhile isJSSpace
    let r1 := r0.dropWhile isJSSpace
    let d1 := r1.takeWhile isDigitCh
    let r2 := r1.dropWhile isDigitCh
    let s2 := r2.takeWhile isJSSpace
    let r3 := r2.dropWhile isJSSpace
    let d2 := r3.takeWhile isDigitCh
    let r4 := r3.dropWhile isDigitCh
    if s1 = [] ∨ d1 = [] ∨ s2 = [] ∨ d2 = [] then none
    else
      match r4 with
      | [] => some (sha, digitsToNat d1, digitsToNat d2)
      | _ =>
        let s3 := r4.takeWhile isJSSpace
        let r5 := r4.dropWhile isJSSpace
        let d3 := r5.takeWhile isDigitCh
        let r6 := r5.dropWhile isDigitCh
        if s3 = [] ∨ d3 = [] ∨ r6 ≠ [] then none
        else some (sha, digitsToNat d1, digitsToNat d2)
  else none

/-- Inner loop of `parseBlamePorcelain`: consume lines until the first
tab-prefixed content line; returns the metadata lines, the content (with
the leading tab stripped) when such a line was found, and the remaining
lines. -/
def readBlock : List (List Char) → List (List Char) × Option (List Char) × List (List Char)
  | [] => ([], none, [])
  | l :: rest =>
    if jsStartsWith l (str "\t") then ([], some (l.drop 1), rest)
    else
      let (m, c, r) := readBlock rest
      (l :: m, c, r)

/-- Accumulator of the metadata fields of one blame block; all fields start
out as the empty string exactly as in the source. -/
structure BlameAcc where
  authorName : List Char := []
  authorMail : List Char := []
  authorTime : List Char := []
  summaryTx : List Char := []
deriving DecidableEq, Repr

/-- Model of `.replace(/^<|>$/g, "")`: strip one leading `<` and one
trailing `>`. -/
def stripAngles (s : List Char) : List Char :=
  let s1 := if jsStartsWith s (str "<") then s.drop 1 else s
  if jsEndsWith s1 (str ">") then s1.dropLast else s1

/-- One iteration of the metadata scan of `parseBlamePorcelain`: recognise
the `author`, `author-mail`, `author-time` and `summary` keys; `none`
models the `RangeError` thrown by `new Date(...).toISOString()` when the
`author-time` value parses to `NaN` or falls outside the `Date` range. -/
def applyMetaLine (acc : BlameAcc) (l : List Char) : Option BlameAcc :=
  if jsStartsWith l (str "author ") then some { acc with authorName := l.drop 7 }
  else if jsStartsWith l (str "author-mail ") then
    some { acc with authorMail := stripAngles (l.drop 12) }
  else if jsStartsWith l (str "author-time ") then
    match jsParseInt10 (l.drop 12) with
    | none => none
    | some n =>
      match toISOStringMs (n * 1000) with
      | none => none
      | some iso => some { acc with authorTime := iso }
  else if jsStartsWith l (str "summary ") then some { acc with summaryTx := l.drop 8 }
  else some acc

/-- Outer loop of `parseBlamePorcelain` over the raw lines.  The fuel
argument bounds the iteration count and equals the number of lines at the
top-level call; every iteration consumes at least one line, so the bound is
never hit.  `none` models a thrown `RangeError` (see `applyMetaLine`). -/
def parseBlameGo : Nat → List (List Char) → Option (List BlameLine)
  | _, [] => some []
  | 0, _ :: _ => some []
  | fuel + 1, l :: rest =>
    match matchBlameHeader l with
    | none => parseBlameGo fuel rest
    | some (sha, _orig, finalLine) =>
      let (meta, contentFound, rest2) := readBlock rest
      match meta.foldlM applyMetaLine {} with
      | none => none
      | some acc =>
        match parseBlameGo fuel rest2 with
        | none => none
        | some rs =>
          some ({ line_number := finalLine
                  content := contentFound.getD []
                  commit :=
                    { sha := sha
                      short_sha := sha.take 7
                      author_name := acc.authorName
                      author_email := acc.authorMail
                      author_time := acc.authorTime
                      summary := acc.summaryTx } } :: rs)

/-- `parseBlamePorcelain` of `src/blame.ts`: parse `git blame
--line-porcelain` output into attribution lines.  `none` models the
(reachable only on invalid `author-time` values) thrown `RangeError`. -/
def parseBlamePorcelain (raw : String) : Option (List BlameLine) :=
  let ls := splitNL raw.data
  parseBlameGo ls.length ls

/-- Final-line header fields of the successive recognised blame blocks, in
input order: the same block segmentation as `parseBlameGo`, projected to
the third header capture. -/
def blockFinalLines : Nat → List (List Char) → List Nat
  | _, [] => []
  | 0, _ :: _ => []
  | fuel + 1, l :: rest =>
    match matchBlameHeader l with
    | none => blockFinalLines fuel rest
    | some (_, _, finalLine) => finalLine :: blockFinalLines fuel (readBlock rest).2.2

/-- Final-line header fields of the recognised blocks of a raw attribution
text. -/
def blameHeaderFinals (raw : String) : List Nat :=
  let ls := splitNL raw.data
  blockFinalLines ls.length ls

/-! ## Diff parser (`src/git.ts`) -/

/-- A hunk of a unified diff (`Hunk` in `src/models.ts`). -/
structure Hunk where
  old_start : Nat
  old_lines : Nat
  new_start : Nat
  new_lines : Nat
  header : List Char
  lines : List (List Char)
deriving DecidableEq, Repr

/-- One file's parse result of `parseDiff` (`{file_path, hunks}`). -/
structure DiffFileEntry where
  file_path : List Char
  hunks : List Hunk
deriving DecidableEq, Repr

/-- A file's merged, identifier-bearing change (`Change` in
`src/models.ts`). -/
structure Change where
  id : List Char
  file_path : List Char
  hunks : List Hunk
deriving DecidableEq, Repr

/-- Model of the hunk-header regex
`^@@ -(\d+)(?:,(\d+))? \+(\d+)(?:,(\d+))? @@(.*)$` of `parseHunks`:
returns the four numeric captures (`none` for an omitted count). -/
def matchHunkHeader (l : List Char) : Option (Nat × Option Nat × Nat × Option Nat) :=
  if jsStartsWith l (str "@@ -") then
    let r0 := l.drop 4
    let d1 := r0.takeWhile isDigitCh
    let r1 := r0.dropWhile isDigitCh
    if d1 = [] then none
    else
      let (oc, r2) :=
        match r1 with
        | ',' :: t =>
          let d := t.takeWhile isDigitCh
          if d = [] then ((none : Option Nat), r1)
          else (some (digitsToNat d), t.dropWhile isDigitCh)
        | _ => (none, r1)
      if jsStartsWith r2 (str " +") then
        let r3 := r2.drop 2
        let d3 := r3.takeWhile isDigitCh
        let r4 := r3.dropWhile isDigitCh
        if d3 = [] then none
        else
          let (nc, r5) :=
            match r4 with
            | ',' :: t =>
              let d := t.takeWhile isDigitCh
              if d = [] then ((none : Option Nat), r4)
              else (some (digitsToNat d), t.dropWhile isDigitCh)
            | _ => (none, r4)
          if jsStartsWith r5 (str " @@") then
            some (digitsToNat d1, oc, digitsToNat d3, nc)
          else none
      else none
  else none

/-- A diff line retained inside a hunk: context, addition, deletion or
no-trailing-newline marker. -/
def keepLine (l : List Char) : Bool :=
  jsStartsWith l (str " ") ∨ jsStartsWith l (str "+") ∨
  jsStartsWith l (str "-") ∨ jsStartsWith l (str "\\")

/-- A line that terminates the body scan of the current hunk in
`parseHunks`: any `@@`-prefixed line or a `diff --git ` line. -/
def isHunkBoundary (l : List Char) : Bool :=
  jsStartsWith l (str "@@") ∨ jsStartsWith l (str "diff --git ")

/-- Body-collection loop of `parseHunks`: gather `keepLine` lines until the
next `isHunkBoundary` line; returns the collected body and the remaining
lines (starting with the boundary line when one was met). -/
def collectHunkBody : List (List Char) → List (List Char) × List (List Char)
  | [] => ([], [])
  | l :: rest =>
    if isHunkBoundary l then ([], l :: rest)
    else
      let (body, rest2) := collectHunkBody rest
      (if keepLine l then l :: body else body, rest2)

/-- Outer loop of `parseHunks`: try the header regex on each line; on a
match, collect the body and emit a hunk (omitted counts default to 1).
The fuel equals the number of lines at the top-level call; every iteration
consumes at least one line. -/
def parseHunksGo : Nat → List (List Char) → List Hunk
  | _, [] => []
  | 0, _ :: _ => []
  | fuel + 1, l :: rest =>
    match matchHunkHeader l with
    | none => parseHunksGo fuel rest
    | some (os, oc, ns, nc) =>
      let (body, rest2) := collectHunkBody rest
      { old_start := os, old_lines := oc.getD 1
        new_start := ns, new_lines := nc.getD 1
        header := l, lines := body } :: parseHunksGo fuel rest2

/-- `parseHunks` of `src/git.ts` on a chunk given as its newline-split
lines: skip to the first `@@`-prefixed line, then scan. -/
def parseHunks (chunk : List (List Char)) : List Hunk :=
  let ls := chunk.dropWhile (fun l => !jsStartsWith l (str "@@"))
  parseHunksGo ls.length ls

/-- Greedy split of the text following `diff --git a/` at the last
occurrence of `" b/"` that leaves both captures non-empty — the
backtracking behaviour of `^diff --git a\/(.+) b\/(.+)$`. -/
def greedyBSplit : List Char → Option (List Char × List Char)
  | [] => none
  | c :: rest =>
    match greedyBSplit rest with
    | some (g1, g2) => some (c :: g1, g2)
    | none =>
      if jsStartsWith rest (str " b/") then
        let g2 := rest.drop 3
        if g2 = [] then none else some ([c], g2)
      else none

/-- Model of the first-line regex `^diff --git a\/(.+) b\/(.+)$` of
`extractFilePath`: the two greedy path captures. -/
def matchDiffGit (l : List Char) : Option (List Char × List Char) :=
  if jsStartsWith l (str "diff --git a/") then greedyBSplit (l.drop 13)
  else none

/-- `extractFilePath` of `src/git.ts`: parse the chunk's first line; use
the A-side path when the B-side is `/dev/null`, the B-side otherwise. -/
def extractFilePath (chunk : List (List Char)) : Option (List Char) :=
  match matchDiffGit (chunk.headD []) with
  | none => none
  | some (aPath, bPath) =>
    if bPath = str "/dev/null" then some aPath else some bPath

/-- `isBinaryFile` of `src/git.ts`: the multiline test
`/^Binary files .+ differ$/m`, i.e. some line is
`Binary files <nonempty> differ`. -/
def isBinaryFile (chunk : List (List Char)) : Bool :=
  chunk.any fun l =>
    jsStartsWith l (str "Binary files ") ∧
    jsEndsWith (l.drop 13) (str " differ") ∧ 8 ≤ (l.drop 13).length

/-- `splitIntoFileChunks` of `src/git.ts` on the newline-split lines of the
diff text: group the lines into chunks opened by each `diff --git `-prefixed
line, dropping the preamble before the first one.  A chunk followed by
another chunk textually ends in a newline, so its split carries a final
empty line; the trailing `[]` reproduces that.  The fuel equals the line
count; every iteration consumes at least one line. -/
def splitFileChunksGo : Nat → List (List Char) → List (List (List Char))
  | _, [] => []
  | 0, _ :: _ => []
  | fuel + 1, l :: rest =>
    if jsStartsWith l (str "diff --git ") then
      let body := rest.takeWhile (fun x => !jsStartsWith x (str "diff --git "))
      let rest2 := rest.dropWhile (fun x => !jsStartsWith x (str "diff --git "))
      (l :: body ++ if rest2 = [] then [] else [[]]) :: splitFileChunksGo fuel rest2
    else splitFileChunksGo fuel rest

/-- `parseDiff` of `src/git.ts`: empty result on blank input, else split
into file chunks and keep each chunk with a recognised path, no binary
marker and at least one hunk. -/
def parseDiff (diffText : String) : List DiffFileEntry :=
  if trimJS diffText.data = [] then []
  else
    let ls := splitNL diffText.data
    let chunks := splitFileChunksGo ls.length ls
    chunks.filterMap fun chunk =>
      match extractFilePath chunk with
      | none => none
      | some filePath =>
        if isBinaryFile chunk then none
        else
          let hunks := parseHunks chunk
          if hunks = [] then none
          else some { file_path := filePath, hunks := hunks }

/-! ## Change assembler (`getUncommittedChanges` of `src/git.ts`) -/

/-- Lookup in the insertion-ordered map modelling the JavaScript `Map`. -/
def mapGet (m : List (List Char × List Hunk)) (k : List Char) : Option (List Hunk) :=
  match m with
  | [] => none
  | (k1, v) :: rest => if k1 = k then some v else mapGet rest k

/-- `Map.prototype.set`: update the existing entry in place or append a new
one. -/
def mapSet (m : List (List Char × List Hunk)) (k : List Char) (v : List Hunk) :
    List (List Char × List Hunk) :=
  match m with
  | [] => [(k, v)]
  | (k1, v1) :: rest =>
    if k1 = k then (k1, v) :: rest else (k1, v1) :: mapSet rest k v

/-- Primary collation weight of a character, modelled from the ECMA-402
default collation used by `String.prototype.localeCompare` with no
arguments, restricted to an ASCII approximation: punctuation and symbols
sort before digits, digits before letters, and letters case-insensitively;
non-ASCII code points follow, by code point. -/
def collPrimary (c : Char) : Nat :=
  let n := c.toNat
  if (97 ≤ n ∧ n ≤ 122) then 400 + n
  else if (65 ≤ n ∧ n ≤ 90) then 400 + n + 32
  else if (48 ≤ n ∧ n ≤ 57) then 300 + n
  else if n < 128 then 100 + n
  else 1000 + n

/-- Tertiary collation weight: lower case before upper case at equal
primary weight. -/
def collTertiary (c : Char) : Nat :=
  if 65 ≤ c.toNat ∧ c.toNat ≤ 90 then 2 else 1

/-- Collation key of a string: all primary weights, a separator, then all
tertiary weights — primary differences dominate any case difference, as in
the ICU root collation. -/
def collKey (s : List Char) : List Nat :=
  s.map collPrimary ++ 0 :: s.map collTertiary

/-- Lexicographic comparison of weight lists. -/
def natListLe : List Nat → List Nat → Bool
  | [], _ => true
  | _ :: _, [] => false
  | a :: as, b :: bs =>
    if a < b then true else if b < a then false else natListLe as bs

/-- Model of the comparator `(a, b) => a.localeCompare(b)` used to sort
file paths: the collation order on keys.  `localeCompare` consults the
host's default locale; the model fixes the locale-independent core of the
default (root) collation over ASCII. -/
def collationLe (a b : List Char) : Prop :=
  natListLe (collKey a) (collKey b) = true

instance : DecidableRel collationLe := fun _ _ =>
  inferInstanceAs (Decidable (_ = true))

/-- Identifier assignment of `getUncommittedChanges`: walk the sorted paths
and build `change-<n>` records, `n` starting at 1. -/
def assignIds (m : List (List Char × List Hunk)) : List (List Char) → Nat → List Change
  | [], _ => []
  | p :: rest, n =>
    { id := str "change-" ++ natChars n, file_path := p,
      hunks := (mapGet m p).getD [] } :: assignIds m rest (n + 1)

/-- Merge and identifier logic of `getUncommittedChanges` (below the
subprocess boundary): staged entries populate the map first, unstaged hunks
are appended per path, paths are sorted with the `localeCompare` comparator
(`Array.prototype.sort` is stable and comparator-sorted; modelled as
insertion sort), and identifiers are assigned in sorted order. -/
def assembleChanges (staged unstaged : List DiffFileEntry) : List Change :=
  let m1 := staged.foldl (fun m e => mapSet m e.file_path e.hunks) []
  let m := unstaged.foldl
    (fun m e =>
      match mapGet m e.file_path with
      | some existing => mapSet m e.file_path (existing ++ e.hunks)
      | none => mapSet m e.file_path e.hunks) m1
  let sortedPaths := List.insertionSort collationLe (m.map Prod.fst)
  assignIds m sortedPaths 1

/-- `getUncommittedChanges` of `src/git.ts` below the subprocess boundary:
the two raw texts stand for the outputs of `git diff --cached` and
`git diff`. -/
def getUncommittedChanges (stagedDiff unstagedDiff : String) : List Change :=
  assembleChanges (parseDiff stagedDiff) (parseDiff unstagedDiff)

/-! ## Specification-side reference definitions -/

/-- The ordering named by the specification for path sorting: the total,
locale-independent lexicographic (code point) order on the path string. -/
def codePointLe : List Char → List Char → Bool
  | [], _ => true
  | _ :: _, [] => false
  | a :: as, b :: bs =>
    if a.toNat < b.toNat then true
    else if b.toNat < a.toNat then false
    else codePointLe as bs

/-- Hunk extraction as the claim reads it: for each line matching the hunk
header pattern, the region runs up to the next line that is itself a valid
hunk header or a file-chunk marker, and the retained body is the region
filtered to the four recognised line kinds. -/
def hunkSpecClaim : List (List Char) → List (List Char × List (List Char))
  | [] => []
  | l :: rest =>
    match matchHunkHeader l with
    | none => hunkSpecClaim rest
    | some _ =>
      (l, (rest.takeWhile fun x =>
            !((matchHunkHeader x).isSome ∨ jsStartsWith x (str "diff --git "))).filter
            keepLine) :: hunkSpecClaim rest

/-- Hunk extraction as the code performs it: the region of a recognised
header runs up to the next `@@`-prefixed line or file-chunk marker
(`isHunkBoundary`), and the retained body is the region filtered to the
four recognised line kinds. -/
def hunkSpecScan : List (List Char) → List (List Char × List (List Char))
  | [] => []
  | l :: rest =>
    match matchHunkHeader l with
    | none => hunkSpecScan rest
    | some _ =>
      (l, (rest.takeWhile fun x => !isHunkBoundary x).filter keepLine) ::
        hunkSpecScan rest

/-! ## The `group_changes` tool handler -/

/-- A change group (`ChangeGroup` in `src/models.ts`). -/
structure ChangeGroup where
  id : List Char
  change_ids : List (List Char)
  summary : List Char
deriving DecidableEq, Repr

/-- Outcome of the `group_changes` handler: an MCP error envelope
(`isError: true` with its message) or the structured groups result. -/
inductive GroupsOut where
  | err (msg : List Char)
  | ok (groups : List ChangeGroup)
deriving DecidableEq, Repr

/-- Modelled from the spec: `resolveChangeIds` (its module `src/changes.ts`
is not among the sources, only its callers are).  Partition the requested
identifiers into the Changes found in the current assembled sequence — in
assembled order, not request order — and the identifiers not found. -/
def resolveChangeIds (assembled : List Change) (ids : List (List Char)) :
    List Change × List (List Char) :=
  (assembled.filter fun c => ids.contains c.id,
   ids.filter fun i => !(assembled.map Change.id).contains i)

/-- Modelled from the spec: `buildEmbeddingText` (its module
`src/changes.ts` is not among the sources).  File path, then each hunk's
header followed by that hunk's content lines, in order, with the total
content-line count across hunks capped at 200. -/
def buildEmbeddingText (c : Change) : List Char :=
  let rec capped : Nat → List Hunk → List (List Char)
    | _, [] => []
    | budget, h :: hs =>
      h.header :: h.lines.take budget ++ capped (budget - h.lines.length) hs
  List.intercalate [ '\n' ] (c.file_path :: capped 200 c.hunks)

/-- A cluster of the greedy engine: member indices, running sum, member
count and materialised centroid (spec §4.5 and design note on centroid
mutation). -/
structure VecCluster where
  indices : List Nat
  vsum : List Float
  count : Nat
  centroid : List Float

/-- Modelled from the spec: cosine similarity — dot product over the
product of magnitudes, 0 when either magnitude is zero. -/
def cosineSim (a b : List Float) : Float :=
  let dp := (List.zipWith (· * ·) a b).foldl (· + ·) 0.0
  let ma := Float.sqrt ((List.zipWith (· * ·) a a).foldl (· + ·) 0.0)
  let mb := Float.sqrt ((List.zipWith (· * ·) b b).foldl (· + ·) 0.0)
  if ma == 0.0 ∨ mb == 0.0 then 0.0 else dp / (ma * mb)

/-- Best existing cluster for a vector: maximum cosine similarity to the
current centroids, earliest cluster winning ties. -/
def bestClusterIdx (v : List Float) (cs : List VecCluster) : Option (Nat × Float) :=
  cs.enum.foldl
    (fun best jc =>
      let s := cosineSim v jc.2.centroid
      match best with
      | none => some (jc.1, s)
      | some (bj, bs) => if bs < s then some (jc.1, s) else some (bj, bs))
    none

/-- Modelled from the spec: `clusterByThreshold` (its module
`src/cluster.ts` is not among the sources).  Greedy single pass in input
order: assign each vector to the best existing cluster when that
similarity meets the threshold, updating the running-mean centroid,
otherwise open a new cluster. -/
def clusterByThreshold (vecs : List (List Float)) (threshold : Float) : List VecCluster :=
  vecs.enum.foldl
    (fun cs iv =>
      match bestClusterIdx iv.2 cs with
      | some (j, s) =>
        if threshold ≤ s then
          cs.enum.map fun kc =>
            if kc.1 = j then
              let vsum := List.zipWith (· + ·) kc.2.vsum iv.2
              let count := kc.2.count + 1
              { indices := kc.2.indices ++ [iv.1], vsum := vsum, count := count,
                centroid := vsum.map (· / count.toFloat) }
            else kc.2
        else cs ++ [⟨[iv.1], iv.2, 1, iv.2⟩]
      | none => cs ++ [⟨[iv.1], iv.2, 1, iv.2⟩])
    []

/-- Per-cluster group construction of the `group_changes` handler. -/
def clustersToGroups (changes : List Change) (clusters : List VecCluster) :
    List ChangeGroup :=
  clusters.enum.map fun ic =>
    let clusterChanges := ic.2.indices.map fun i =>
      changes.getD i { id := [], file_path := [], hunks := [] }
    let filePaths := clusterChanges.map Change.file_path
    { id := str "group-" ++ natChars (ic.1 + 1)
      change_ids := clusterChanges.map Change.id
      summary :=
        if filePaths.length = 1 then str "Changes in " ++ filePaths.headD []
        else str "Related changes across " ++ List.intercalate (str ", ") filePaths }

/-- The `group_changes` tool handler of the MCP server entrypoint, below
the transport envelope: resolve the requested identifiers against the
current assembled changes, error on unknowns, answer a single resolved
change directly, and otherwise embed, cluster at threshold 0.80 and map
clusters to groups.  The embedding provider (an awaited external call in
the source) is modelled as the function argument `embed`. -/
def groupChangesTool (assembled : List Change)
    (embed : List (List Char) → List (List Float))
    (change_ids : List (List Char)) : GroupsOut :=
  let res := resolveChangeIds assembled change_ids
  let changes := res.1
  let unknown := res.2
  if unknown ≠ [] then
    GroupsOut.err (str "Unknown change IDs: " ++ List.intercalate (str ", ") unknown)
  else
    match changes with
    | [c] =>
      GroupsOut.ok
        [{ id := str "group-1", change_ids := [c.id],
           summary := str "Changes in " ++ c.file_path }]
    | _ =>
      let texts := changes.map buildEmbeddingText
      let embeddings := embed texts
      let clusters := clusterByThreshold embeddings 0.80
      GroupsOut.ok (clustersToGroups changes clusters)

/-! ## Helper lemmas -/

theorem readBlock_noTab (ls : List (List Char))
    (h : ∀ l ∈ ls, jsStartsWith l (str "\t") = false) :
    readBlock ls = (ls, none, []) := by
  induction ls with
  | nil => rfl
  | cons l rest ih =>
    have hl := h l (List.mem_cons_self _ _)
    have hr := ih fun x hx => h x (List.mem_cons_of_mem _ hx)
    simp [readBlock, hl, hr]

theorem parseBlameGo_finals (fuel : Nat) (ls : List (List Char)) (out : List BlameLine)
    (hok : parseBlameGo fuel ls = some out) :
    out.map BlameLine.line_number = blockFinalLines fuel ls := by
  induction fuel generalizing ls out with
  | zero =>
    cases ls with
    | nil =>
      simp [parseBlameGo] at hok
      simp [hok, blockFinalLines]
    | cons l rest =>
      simp [parseBlameGo] at hok
      simp [hok, blockFinalLines]
  | succ fuel ih =>
    cases ls with
    | nil =>
      simp [parseBlameGo] at hok
      simp [hok, blockFinalLines]
    | cons l rest =>
      cases hm : matchBlameHeader l with
      | none =>
        rw [parseBlameGo] at hok
        rw [hm] at hok
        simpa [blockFinalLines, hm] using ih rest out hok
      | some v =>
        obtain ⟨sha, orig, finalLine⟩ := v
        rw [parseBlameGo] at hok
        rw [hm] at hok
        simp only at hok
        rcases hacc : (readBlock rest).1.foldlM applyMetaLine {} with _ | acc
        · rw [hacc] at hok; cases hok
        · rw [hacc] at hok
          rcases hrec : parseBlameGo fuel (readBlock rest).2.2 with _ | rs
          · rw [hrec] at hok; cases hok
          · rw [hrec] at hok
            cases hok
            simp [blockFinalLines, hm, ih _ _ hrec]

theorem collectHunkBody_eq (ls : List (List Char)) :
    collectHunkBody ls =
      ((ls.takeWhile fun l => !isHunkBoundary l).filter keepLine,
       ls.dropWhile fun l => !isHunkBoundary l) := by
  induction ls with
  | nil => rfl
  | cons l rest ih =>
    by_cases hb : isHunkBoundary l = true
    · simp [collectHunkBody, hb, List.takeWhile_cons, List.dropWhile_cons]
    · have hb' : isHunkBoundary l = false := by simpa using hb
      simp [collectHunkBody, hb', ih, List.takeWhile_cons, List.dropWhile_cons,
        List.filter_cons]

theorem jsStartsWith_append (s p q : List Char)
    (h : jsStartsWith s (p ++ q) = true) : jsStartsWith s p = true := by
  induction p generalizing s with
  | nil => simp [jsStartsWith]
  | cons c ps ih =>
    cases s with
    | nil => simp [jsStartsWith] at h
    | cons a as =>
      simp only [List.cons_append, jsStartsWith] at h ⊢
      simp only [Bool.decide_and, Bool.and_eq_true, decide_eq_true_eq] at h ⊢
      exact ⟨h.1, ih as h.2⟩

theorem matchHunkHeader_boundary (l : List Char)
    (h : (matchHunkHeader l).isSome) : isHunkBoundary l = true := by
  by_cases hs : jsStartsWith l (str "@@ -") = true
  · have : jsStartsWith l (str "@@") = true := by
      have : str "@@ -" = str "@@" ++ str " -" := by decide
      exact jsStartsWith_append l _ _ (by rw [← this]; exact hs)
    simp [isHunkBoundary, this]
  · rw [matchHunkHeader] at h
    simp [hs] at h

theorem hunkSpecScan_dropWhile_boundary (ls : List (List Char)) :
    hunkSpecScan (ls.dropWhile fun l => !isHunkBoundary l) = hunkSpecScan ls := by
  induction ls with
  | nil => rfl
  | cons l rest ih =>
    by_cases hb : isHunkBoundary l = true
    · simp [List.dropWhile_cons, hb]
    · have hb' : isHunkBoundary l = false := by simpa using hb
      have hm : matchHunkHeader l = none := by
        cases hmm : matchHunkHeader l with
        | none => rfl
        | some v =>
          have := matchHunkHeader_boundary l (by simp [hmm])
          rw [hb'] at this; cases this
      simp [List.dropWhile_cons, hb', hunkSpecScan, hm, ih]

theorem parseHunksGo_eq_scan (fuel : Nat) (ls : List (List Char))
    (h : ls.length ≤ fuel) :
    (parseHunksGo fuel ls).map (fun hk => (hk.header, hk.lines)) = hunkSpecScan ls := by
  induction fuel generalizing ls with
  | zero =>
    have : ls = [] := List.length_eq_zero.mp (Nat.le_zero.mp h)
    subst this; rfl
  | succ fuel ih =>
    cases ls with
    | nil => rfl
    | cons l rest =>
      have hlen : rest.length ≤ fuel := by
        simpa using Nat.le_of_succ_le_succ h
      cases hm : matchHunkHeader l with
      | none => simp [parseHunksGo, hunkSpecScan, hm, ih rest hlen]
      | some v =>
        obtain ⟨os, oc, ns, nc⟩ := v
        have hlen2 : (rest.dropWhile fun x => !isHunkBoundary x).length ≤ fuel :=
          le_trans (List.dropWhile_sublist _).length_le hlen
        simp only [parseHunksGo, hm, collectHunkBody_eq, hunkSpecScan, List.map_cons]
        refine congrArg _ ?_
        rw [ih _ hlen2, hunkSpecScan_dropWhile_boundary]

theorem parseBlameGo_noTab (fuel : Nat) (ls : List (List Char)) (out : List BlameLine)
    (hfuel : ls.length ≤ fuel)
    (hnotab : ∀ l ∈ ls, jsStartsWith l (str "\t") = false)
    (hhdr : ∃ l ∈ ls, (matchBlameHeader l).isSome)
    (hok : parseBlameGo fuel ls = some out) :
    ∃ r, out = [r] ∧ r.content = [] := by
  induction fuel generalizing ls out with
  | zero =>
    obtain ⟨l, hl, _⟩ := hhdr
    cases ls with
    | nil => cases hl
    | cons a as => simp at hfuel
  | succ fuel ih =>
    cases ls with
    | nil =>
      obtain ⟨l, hl, _⟩ := hhdr
      cases hl
    | cons l rest =>
      cases hm : matchBlameHeader l with
      | none =>
        rw [parseBlameGo, hm] at hok
        refine ih rest out (by simpa using Nat.le_of_succ_le_succ hfuel)
          (fun x hx => hnotab x (List.mem_cons_of_mem _ hx)) ?_ hok
        obtain ⟨x, hx, hxs⟩ := hhdr
        rcases List.mem_cons.mp hx with rfl | hx2
        · rw [hm] at hxs; cases hxs
        · exact ⟨x, hx2, hxs⟩
      | some v =>
        obtain ⟨sha, orig, finalLine⟩ := v
        have hrb : readBlock rest = (rest, none, []) :=
          readBlock_noTab rest fun x hx => hnotab x (List.mem_cons_of_mem _ hx)
        rw [parseBlameGo, hm] at hok
        rw [hrb] at hok
        simp only at hok
        rcases hacc : rest.foldlM applyMetaLine ({} : BlameAcc) with _ | acc
        · rw [hacc] at hok; cases hok
        · rw [hacc] at hok
          simp only [parseBlameGo] at hok
          cases hok
          exact ⟨_, rfl, rfl⟩

/-- C1 counterexample: a block whose recognised header is followed by a
metadata line but never by a tab-prefixed content line is *not* discarded —
`parseBlamePorcelain` emits an attribution line for it (with empty
content), contradicting the claim that no line is emitted. -/
theorem blame_unclosed_discard_cex :
    parseBlamePorcelain "aaaaaaaaaaaaaaaaaaaaaaaaaaaaaaaaaaaaaaaa 1 2\nauthor Alice" =
      some [{ line_number := 2, content := [],
              commit := { sha := str "aaaaaaaaaaaaaaaaaaaaaaaaaaaaaaaaaaaaaaaa",
                          short_sha := str "aaaaaaa",
                          author_name := str "Alice",
                          author_email := [], author_time := [],
                          summary := [] } }] := by decide

/-- C1 (amended): a block whose recognised 40-hex header is never followed
by a tab-prefixed content line before end-of-input is not discarded: when
the parse returns (no invalid `author-time` value aborts it), the block is
emitted with `content` equal to the empty string.  Stated for inputs with
no tab-prefixed line at all: the first recognised header then opens the
block that reaches end-of-input, and exactly one line is emitted. -/
theorem blame_unclosed_emitted (raw : String) (out : List BlameLine)
    (hnotab : ∀ l ∈ splitNL raw.data, jsStartsWith l (str "\t") = false)
    (hhdr : ∃ l ∈ splitNL raw.data, (matchBlameHeader l).isSome)
    (hok : parseBlamePorcelain raw = some out) :
    ∃ r, out = [r] ∧ r.content = [] :=
  parseBlameGo_noTab _ _ out le_rfl hnotab hhdr hok

theorem blame_unclosed_emitted_witness :
    (∀ l ∈ splitNL (str "aaaaaaaaaaaaaaaaaaaaaaaaaaaaaaaaaaaaaaaa 1 2\nauthor Alice"),
      jsStartsWith l (str "\t") = false) ∧
    (∃ l ∈ splitNL (str "aaaaaaaaaaaaaaaaaaaaaaaaaaaaaaaaaaaaaaaa 1 2\nauthor Alice"),
      (matchBlameHeader l).isSome) ∧
    (∃ r, [({ line_number := 2, content := [],
              commit := { sha := str "aaaaaaaaaaaaaaaaaaaaaaaaaaaaaaaaaaaaaaaa",
                          short_sha := str "aaaaaaa",
                          author_name := str "Alice",
                          author_email := [], author_time := [],
                          summary := [] } } : BlameLine)] = [r] ∧ r.content = []) :=
  ⟨by decide, by decide,
    blame_unclosed_emitted "aaaaaaaaaaaaaaaaaaaaaaaaaaaaaaaaaaaaaaaa 1 2\nauthor Alice" _
      (by decide) (by decide) (by decide)⟩

/-- C5 counterexample: an input whose two recognised blocks carry final-line
fields 5 then 3 makes `parseBlamePorcelain` emit line numbers `[5, 3]`,
which is not monotonically non-decreasing. -/
theorem blame_monotone_cex :
    (parseBlamePorcelain
        "aaaaaaaaaaaaaaaaaaaaaaaaaaaaaaaaaaaaaaaa 1 5\n\tx\nbbbbbbbbbbbbbbbbbbbbbbbbbbbbbbbbbbbbbbbb 1 3\n\ty").map
        (fun ls => ls.map BlameLine.line_number) = some [5, 3] ∧
    ¬ List.Chain' (fun a b => a ≤ b) [5, 3] := by
  constructor
  · decide
  · rw [List.chain'_cons]
    simp

/-- C5 (amended): the parser emits blocks in input order and takes each
`line_number` verbatim from the block header's final-line field, so the
emitted `line_number` values are monotonically non-decreasing whenever the
final-line fields of the recognised block headers are non-decreasing in
input order (as they are in real `git blame` output); for arbitrary raw
text they need not be. -/
theorem blame_lineNumbers_monotone (raw : String) (out : List BlameLine)
    (hok : parseBlamePorcelain raw = some out)
    (hmono : List.Chain' (fun a b => a ≤ b) (blameHeaderFinals raw)) :
    List.Chain' (fun a b => a ≤ b) (out.map BlameLine.line_number) := by
  have := parseBlameGo_finals (splitNL raw.data).length (splitNL raw.data) out hok
  rw [this]
  exact hmono

theorem blame_lineNumbers_monotone_witness :
    parseBlamePorcelain "aaaaaaaaaaaaaaaaaaaaaaaaaaaaaaaaaaaaaaaa 1 1\n\tx" =
      some [{ line_number := 1, content := str "x",
              commit := { sha := str "aaaaaaaaaaaaaaaaaaaaaaaaaaaaaaaaaaaaaaaa",
                          short_sha := str "aaaaaaa",
                          author_name := [], author_email := [],
                          author_time := [], summary := [] } }] ∧
    List.Chain' (fun a b => a ≤ b)
      (blameHeaderFinals "aaaaaaaaaaaaaaaaaaaaaaaaaaaaaaaaaaaaaaaa 1 1\n\tx") ∧
    List.Chain' (fun a b => a ≤ b)
      ([({ line_number := 1, content := str "x",
           commit := { sha := str "aaaaaaaaaaaaaaaaaaaaaaaaaaaaaaaaaaaaaaaa",
                       short_sha := str "aaaaaaa",
                       author_name := [], author_email := [],
                       author_time := [], summary := [] } } : BlameLine)].map
        BlameLine.line_number) :=
  ⟨by decide,
    by
      have h : blameHeaderFinals "aaaaaaaaaaaaaaaaaaaaaaaaaaaaaaaaaaaaaaaa 1 1\n\tx" = [1] := by
        decide
      rw [h]
      exact List.chain'_singleton _,
    blame_lineNumbers_monotone "aaaaaaaaaaaaaaaaaaaaaaaaaaaaaaaaaaaaaaaa 1 1\n\tx" _
      (by decide)
      (by
        have h : blameHeaderFinals "aaaaaaaaaaaaaaaaaaaaaaaaaaaaaaaaaaaaaaaa 1 1\n\tx" = [1] := by
          decide
        rw [h]
        exact List.chain'_singleton _)⟩

/-- C9: a well-formed block whose `author-time` value is 1700000000 yields
`author_time = "2023-11-14T22:13:20.000Z"`, and a block with no `summary`
key yields `summary = ""` rather than an error. -/
theorem blame_time_and_summary :
    (parseBlamePorcelain
        "abc1234567890abc1234567890abc123456789ab 1 1 1\nauthor Alice\nauthor-mail <alice@example.com>\nauthor-time 1700000000\nauthor-tz +0000\ncommitter Alice\ncommitter-mail <alice@example.com>\ncommitter-time 1700000000\ncommitter-tz +0000\nsummary Initial commit\nfilename src/index.ts\n\tconsole.log(hello);").map
        (fun ls => ls.map fun bl => bl.commit.author_time) =
      some [str "2023-11-14T22:13:20.000Z"] ∧
    (parseBlamePorcelain
        "cccccccccccccccccccccccccccccccccccccccc 3 3 1\nfilename f.ts\n\tsome content").map
        (fun ls => ls.map fun bl => bl.commit.summary) =
      some [str ""] := by
  constructor
  · decide
  · decide

/-- C10: a diff text consisting only of JavaScript whitespace (which
includes the empty text) parses to the empty result rather than failing. -/
theorem parseDiff_blank_empty (s : String) (h : ∀ c ∈ s.data, isJSSpace c = true) :
    parseDiff s = [] := by
  have h1 : s.data.dropWhile isJSSpace = [] := by
    rw [List.dropWhile_eq_nil_iff]
    exact h
  have ht : trimJS s.data = [] := by
    unfold trimJS
    rw [h1]
    rfl
  unfold parseDiff
  rw [ht]
  simp

theorem parseDiff_blank_empty_witness :
    parseDiff "   \n  \n  " = [] ∧ parseDiff "" = [] :=
  ⟨parseDiff_blank_empty "   \n  \n  " (by decide),
   parseDiff_blank_empty "" (by decide)⟩

/-- C4 counterexample: on the (never produced by git, but accepted by the
parser) header whose both sides are the null-device sentinel, `parseDiff`
emits a Change whose `file_path` *is* `/dev/null`, contradicting the
universally quantified claim. -/
theorem file_path_devnull_cex :
    (parseDiff "diff --git a//dev/null b//dev/null\n@@ -1 +1 @@\n+x\n").map
        DiffFileEntry.file_path = [str "/dev/null"] := by decide

/-- C4 (amended): when a chunk's first line matches the two-sided header
pattern, the extracted path is the A-side exactly when the B-side is the
sentinel and the B-side otherwise; consequently the extracted path can be
the sentinel only when both captured sides are the sentinel (an input real
git never emits). -/
theorem extractFilePath_choice (chunk : List (List Char)) (aPath bPath : List Char)
    (h : matchDiffGit (chunk.headD []) = some (aPath, bPath)) :
    extractFilePath chunk = some (if bPath = str "/dev/null" then aPath else bPath) ∧
    ((if bPath = str "/dev/null" then aPath else bPath) = str "/dev/null" →
      aPath = str "/dev/null" ∧ bPath = str "/dev/null") := by
  constructor
  · unfold extractFilePath
    rw [h]
    by_cases hb : bPath = str "/dev/null" <;> simp [hb]
  · intro hdev
    by_cases hb : bPath = str "/dev/null"
    · rw [if_pos hb] at hdev
      exact ⟨hdev, hb⟩
    · rw [if_neg hb] at hdev
      exact absurd hdev hb

theorem extractFilePath_choice_witness :
    matchDiffGit ([str "diff --git a/removed.ts b//dev/null"].headD []) =
      some (str "removed.ts", str "/dev/null") ∧
    extractFilePath [str "diff --git a/removed.ts b//dev/null"] =
      some (if str "/dev/null" = str "/dev/null" then str "removed.ts"
            else str "/dev/null") :=
  ⟨by decide, (extractFilePath_choice _ _ _ (by decide)).1⟩

theorem matchHunkHeader_atat (l : List Char)
    (h : (matchHunkHeader l).isSome) : jsStartsWith l (str "@@") = true := by
  by_cases hs : jsStartsWith l (str "@@ -") = true
  · have heq : str "@@ -" = str "@@" ++ str " -" := by decide
    exact jsStartsWith_append l _ _ (by rw [← heq]; exact hs)
  · rw [matchHunkHeader] at h
    simp [hs] at h

theorem hunkSpecScan_dropWhile_notAt (ls : List (List Char)) :
    hunkSpecScan (ls.dropWhile fun l => !jsStartsWith l (str "@@")) = hunkSpecScan ls := by
  induction ls with
  | nil => rfl
  | cons l rest ih =>
    by_cases hb : jsStartsWith l (str "@@") = true
    · simp [List.dropWhile_cons, hb]
    · have hb' : jsStartsWith l (str "@@") = false := by simpa using hb
      have hm : matchHunkHeader l = none := by
        cases hmm : matchHunkHeader l with
        | none => rfl
        | some v =>
          have := matchHunkHeader_atat l (by simp [hmm])
          rw [hb'] at this; cases this
      simp [List.dropWhile_cons, hb', hunkSpecScan, hm, ih]

theorem parseHunksScan_eq (chunk : List (List Char)) :
    (parseHunks chunk).map (fun hk => (hk.header, hk.lines)) = hunkSpecScan chunk := by
  unfold parseHunks
  rw [parseHunksGo_eq_scan _ _ le_rfl, hunkSpecScan_dropWhile_notAt]

/-- C3 (amended): the retained body of each recognised hunk header runs up
to the next `@@`-prefixed line or file-chunk marker — an `@@`-prefixed line
that fails the header pattern terminates the current hunk's body (it is
itself dropped), rather than the body extending to the next *valid* header
as the claim reads; within that region exactly the lines starting with
space, `+`, `-` or `\` are retained, and hunks are emitted in header
order. -/
theorem parseHunks_matches_scan (chunk : List (List Char)) :
    (parseHunks chunk).map (fun hk => (hk.header, hk.lines)) = hunkSpecScan chunk :=
  parseHunksScan_eq chunk

/-- C3 counterexample: after the valid header `@@ -1 +1 @@`, the line `+y`
lies before the next valid hunk header or file-chunk marker and starts
with `+`, yet it is not retained: the malformed `@@bad` line ends the
body.  The claim's reading (`hunkSpecClaim`) would retain it. -/
theorem hunk_region_claim_cex :
    (parseHunks [str "diff --git a/f b/f", str "@@ -1 +1 @@", str "+x", str "@@bad",
        str "+y"]).map Hunk.lines = [[str "+x"]] ∧
    (hunkSpecClaim [str "diff --git a/f b/f", str "@@ -1 +1 @@", str "+x", str "@@bad",
        str "+y"]).map Prod.snd = [[str "+x", str "+y"]] ∧
    ([[str "+x"]] : List (List (List Char))) ≠ [[str "+x", str "+y"]] :=
  ⟨by decide, by decide, by decide⟩

theorem hunkSpecScan_snd_keep (ls : List (List Char)) :
    ∀ e ∈ hunkSpecScan ls, ∀ l ∈ e.2, keepLine l = true := by
  induction ls with
  | nil => intro e he; cases he
  | cons l rest ih =>
    intro e he
    rw [hunkSpecScan] at he
    cases hm : matchHunkHeader l with
    | none =>
      rw [hm] at he
      exact ih e he
    | some v =>
      rw [hm] at he
      rcases List.mem_cons.mp he with rfl | he2
      · intro x hx
        exact List.of_mem_filter hx
      · exact ih e he2

theorem hunkSpecScan_snd_sublist (ls : List (List Char)) :
    ∀ e ∈ hunkSpecScan ls, e.2.Sublist ls := by
  induction ls with
  | nil => intro e he; cases he
  | cons l rest ih =>
    intro e he
    rw [hunkSpecScan] at he
    cases hm : matchHunkHeader l with
    | none =>
      rw [hm] at he
      exact (ih e he).cons l
    | some v =>
      rw [hm] at he
      rcases List.mem_cons.mp he with rfl | he2
      · exact ((List.filter_sublist _).trans (List.takeWhile_sublist _)).cons l
      · exact (ih e he2).cons l

theorem hunkSpecScan_headers_sublist (ls : List (List Char)) :
    ((hunkSpecScan ls).map Prod.fst).Sublist ls := by
  induction ls with
  | nil => simp [hunkSpecScan]
  | cons l rest ih =>
    rw [hunkSpecScan]
    cases hm : matchHunkHeader l with
    | none => exact ih.cons l
    | some v => simpa using ih.cons₂ l

/-- C6: every line of every emitted hunk starts with one of the four
recognised markers (space, `+`, `-`, `\`), hunk bodies preserve source
appearance order (they are sublists of the chunk's lines), and hunks are
emitted in the order their header lines appear in the chunk. -/
theorem hunk_lines_wellformed :
    (∀ text : String, ∀ e ∈ parseDiff text, ∀ hk ∈ e.hunks, ∀ l ∈ hk.lines,
      keepLine l = true) ∧
    (∀ chunk : List (List Char),
      (∀ hk ∈ parseHunks chunk, hk.lines.Sublist chunk) ∧
      ((parseHunks chunk).map Hunk.header).Sublist chunk) := by
  have hpair : ∀ chunk : List (List Char), ∀ hk ∈ parseHunks chunk,
      (hk.header, hk.lines) ∈ hunkSpecScan chunk := by
    intro chunk hk hmem
    rw [← parseHunksScan_eq]
    exact List.mem_map_of_mem _ hmem
  have hkeep : ∀ chunk : List (List Char), ∀ hk ∈ parseHunks chunk,
      ∀ l ∈ hk.lines, keepLine l = true := by
    intro chunk hk hmem l hl
    exact hunkSpecScan_snd_keep chunk _ (hpair chunk hk hmem) l hl
  constructor
  · intro text e he hk hmem l hl
    rw [parseDiff] at he
    by_cases htrim : trimJS text.data = []
    · rw [if_pos htrim] at he; cases he
    · rw [if_neg htrim] at he
      obtain ⟨chunk, _, heq⟩ := List.mem_filterMap.mp he
      rcases hfp : extractFilePath chunk with _ | p
      · rw [hfp] at heq; cases heq
      · rw [hfp] at heq
        by_cases hbin : isBinaryFile chunk = true
        · simp [hbin] at heq
        · have hbin' : isBinaryFile chunk = false := by simpa using hbin
          rw [hbin'] at heq
          simp only [Bool.false_eq_true, if_false] at heq
          by_cases hz : parseHunks chunk = []
          · simp [hz] at heq
          · rw [if_neg hz] at heq
            cases heq
            exact hkeep chunk hk hmem l hl
  · intro chunk
    refine ⟨fun hk hmem => hunkSpecScan_snd_sublist chunk _ (hpair chunk hk hmem), ?_⟩
    have h := hunkSpecScan_headers_sublist chunk
    rw [← parseHunksScan_eq chunk] at h
    simpa [List.map_map, Function.comp] using h

theorem hunk_lines_wellformed_witness :
    keepLine (str "+x") = true ∧
    List.Sublist [str "+x"] [str "@@ -1 +1 @@", str "+x"] :=
  ⟨hunk_lines_wellformed.1 "diff --git a/f b/f\n@@ -1 +1 @@\n+x\n"
      { file_path := str "f",
        hunks := [{ old_start := 1, old_lines := 1, new_start := 1, new_lines := 1,
                    header := str "@@ -1 +1 @@", lines := [str "+x"] }] }
      (by decide)
      { old_start := 1, old_lines := 1, new_start := 1, new_lines := 1,
        header := str "@@ -1 +1 @@", lines := [str "+x"] }
      (by decide) (str "+x") (by decide),
   (hunk_lines_wellformed.2 [str "@@ -1 +1 @@", str "+x"]).1
      { old_start := 1, old_lines := 1, new_start := 1, new_lines := 1,
        header := str "@@ -1 +1 @@", lines := [str "+x"] }
      (by decide)⟩

theorem natListLe_total (a b : List Nat) : natListLe a b = true ∨ natListLe b a = true := by
  induction a generalizing b with
  | nil => left; rfl
  | cons x as ih =>
    cases b with
    | nil => right; rfl
    | cons y bs =>
      rcases Nat.lt_trichotomy x y with h | h | h
      · left; simp [natListLe, h]
      · subst h
        rcases ih bs with h2 | h2
        · left; simp [natListLe, h2]
        · right; simp [natListLe, h2]
      · right; simp [natListLe, h]

theorem natListLe_trans (a b c : List Nat) (hab : natListLe a b = true)
    (hbc : natListLe b c = true) : natListLe a c = true := by
  induction a generalizing b c with
  | nil => rfl
  | cons x as ih =>
    cases b with
    | nil => simp [natListLe] at hab
    | cons y bs =>
      cases c with
      | nil => simp [natListLe] at hbc
      | cons z cs =>
        by_cases h1 : x < y
        · by_cases h2 : y < z
          · have h3 : x < z := by omega
            simp [natListLe, h3]
          · by_cases h3 : z < y
            · simp [natListLe, h2, h3] at hbc
            · have hyz : y = z := by omega
              subst hyz
              simp [natListLe, h1]
        · by_cases h1' : y < x
          · simp [natListLe, h1, h1'] at hab
          · have hxy : x = y := by omega
            subst hxy
            by_cases h2 : x < z
            · simp [natListLe, h2]
            · by_cases h3 : z < x
              · simp [natListLe, h2, h3] at hbc
              · have hxz : x = z := by omega
                subst hxz
                simp only [natListLe, Nat.lt_irrefl, if_false] at hab hbc ⊢
                exact ih bs cs hab hbc

theorem assignIds_map_path (m : List (List Char × List Hunk)) (ps : List (List Char))
    (n : Nat) : (assignIds m ps n).map Change.file_path = ps := by
  induction ps generalizing n with
  | nil => rfl
  | cons p rest ih => simp [assignIds, ih]

theorem assignIds_map_id (m : List (List Char × List Hunk)) (ps : List (List Char))
    (n : Nat) :
    (assignIds m ps n).map Change.id =
      (List.range ps.length).map fun i => str "change-" ++ natChars (n + i) := by
  induction ps generalizing n with
  | nil => rfl
  | cons p rest ih =>
    simp only [assignIds, List.map_cons, ih, List.length_cons, List.range_succ_eq_map,
      List.map_map]
    refine congrArg₂ _ ?_ ?_
    · simp
    · apply List.map_congr_left
      intro i _
      simp only [Function.comp_apply]
      have h : n + 1 + i = n + (i + 1) := by omega
      rw [h]

theorem assignIds_ids_from_one (m : List (List Char × List Hunk)) (ps : List (List Char)) :
    (assignIds m ps 1).map Change.id =
      (List.range (assignIds m ps 1).length).map fun i => str "change-" ++ natChars (i + 1) := by
  rw [assignIds_map_id]
  have hlen : (assignIds m ps 1).length = ps.length := by
    simpa using congrArg List.length (assignIds_map_path m ps 1)
  rw [hlen]
  apply List.map_congr_left
  intro i _
  have h : 1 + i = i + 1 := by omega
  rw [h]

/-- C2 counterexample: for files `B.txt` and `a.txt`, the assembled output
orders `a.txt` first (the `localeCompare` collation), although the total,
locale-independent lexicographic order on the path strings orders `B.txt`
first — so the output is not sorted by that order. -/
theorem sort_locale_cex :
    (getUncommittedChanges
        "diff --git a/B.txt b/B.txt\n@@ -1 +1 @@\n+b\ndiff --git a/a.txt b/a.txt\n@@ -1 +1 @@\n+a\n"
        "").map (fun c => (c.id, c.file_path)) =
      [(str "change-1", str "a.txt"), (str "change-2", str "B.txt")] ∧
    codePointLe (str "a.txt") (str "B.txt") = false :=
  ⟨by decide, by decide⟩

/-- C2 (amended): the merged file paths are sorted by the collation order
of the `localeCompare` comparator (locale-sensitive; not the code-point
lexicographic order on the path strings), and identifiers `change-<n>` are
assigned sequentially from 1 strictly following that sorted order. -/
theorem changes_sorted_ids (staged unstaged : List DiffFileEntry) :
    List.Sorted collationLe ((assembleChanges staged unstaged).map Change.file_path) ∧
    (assembleChanges staged unstaged).map Change.id =
      (List.range (assembleChanges staged unstaged).length).map
        (fun i => str "change-" ++ natChars (i + 1)) := by
  have htotal : IsTotal (List Char) collationLe :=
    ⟨fun a b => natListLe_total (collKey a) (collKey b)⟩
  have htrans : IsTrans (List Char) collationLe :=
    ⟨fun a b c => natListLe_trans (collKey a) (collKey b) (collKey c)⟩
  constructor
  · rw [show assembleChanges staged unstaged =
        assignIds
          (unstaged.foldl
            (fun m e =>
              match mapGet m e.file_path with
              | some existing => mapSet m e.file_path (existing ++ e.hunks)
              | none => mapSet m e.file_path e.hunks)
            (staged.foldl (fun m e => mapSet m e.file_path e.hunks) []))
          (List.insertionSort collationLe
            ((unstaged.foldl
              (fun m e =>
                match mapGet m e.file_path with
                | some existing => mapSet m e.file_path (existing ++ e.hunks)
                | none => mapSet m e.file_path e.hunks)
              (staged.foldl (fun m e => mapSet m e.file_path e.hunks) [])).map Prod.fst))
          1 from rfl]
    rw [assignIds_map_path]
    exact @List.sorted_insertionSort _ collationLe _ htotal htrans _
  · exact assignIds_ids_from_one _ _

theorem mapGet_mapSet_self (m : List (List Char × List Hunk)) (k : List Char)
    (v : List Hunk) : mapGet (mapSet m k v) k = some v := by
  induction m with
  | nil => simp [mapSet, mapGet]
  | cons e rest ih =>
    obtain ⟨k1, v1⟩ := e
    by_cases h : k1 = k
    · simp [mapSet, mapGet, h]
    · simp [mapSet, mapGet, h, ih]

theorem mapGet_mapSet_ne (m : List (List Char × List Hunk)) (k : List Char)
    (v : List Hunk) (p : List Char) (h : k ≠ p) :
    mapGet (mapSet m k v) p = mapGet m p := by
  induction m with
  | nil => simp [mapSet, mapGet, h]
  | cons e rest ih =>
    obtain ⟨k1, v1⟩ := e
    by_cases h1 : k1 = k
    · subst h1
      simp [mapSet, mapGet, h]
    · by_cases h2 : k1 = p
      · simp [mapSet, mapGet, h1, h2, Ne.symm h]
      · simp [mapSet, mapGet, h1, h2, ih]

theorem mapGet_mem_keys (m : List (List Char × List Hunk)) (p : List Char)
    (v : List Hunk) (h : mapGet m p = some v) : p ∈ m.map Prod.fst := by
  induction m with
  | nil => cases h
  | cons e rest ih =>
    obtain ⟨k1, v1⟩ := e
    rw [mapGet] at h
    by_cases hk : k1 = p
    · simp [hk]
    · rw [if_neg hk] at h
      simpa using Or.inr (ih h)

theorem stagedFold_preserve (staged : List DiffFileEntry)
    (m : List (List Char × List Hunk)) (p : List Char)
    (hp : p ∉ staged.map DiffFileEntry.file_path) :
    mapGet (staged.foldl (fun m e => mapSet m e.file_path e.hunks) m) p = mapGet m p := by
  revert hp
  induction staged generalizing m with
  | nil => intro _; rfl
  | cons e rest ih =>
    intro hp
    simp only [List.map_cons, List.mem_cons, not_or] at hp
    obtain ⟨h1, h2⟩ := hp
    simp only [List.foldl_cons]
    rw [ih _ h2, mapGet_mapSet_ne _ _ _ _ fun he => h1 he.symm]

theorem stagedFold_mapGet (staged : List DiffFileEntry)
    (m : List (List Char × List Hunk)) (p : List Char) (hs : List Hunk)
    (hnd : (staged.map DiffFileEntry.file_path).Nodup)
    (hmem : DiffFileEntry.mk p hs ∈ staged) :
    mapGet (staged.foldl (fun m e => mapSet m e.file_path e.hunks) m) p = some hs := by
  revert hnd hmem
  induction staged generalizing m with
  | nil => intro _ hmem; cases hmem
  | cons e rest ih =>
    intro hnd hmem
    simp only [List.map_cons, List.nodup_cons] at hnd
    obtain ⟨hnd1, hnd2⟩ := hnd
    simp only [List.foldl_cons]
    rcases List.mem_cons.mp hmem with rfl | hmem2
    · rw [stagedFold_preserve rest _ p hnd1, mapGet_mapSet_self]
    · have hpmem : p ∈ rest.map DiffFileEntry.file_path :=
        List.mem_map_of_mem DiffFileEntry.file_path hmem2
      exact ih _ hnd2 hmem2

theorem unstagedFold_preserve (unstaged : List DiffFileEntry)
    (m : List (List Char × List Hunk)) (p : List Char)
    (hp : p ∉ unstaged.map DiffFileEntry.file_path) :
    mapGet (unstaged.foldl
      (fun m e =>
        match mapGet m e.file_path with
        | some existing => mapSet m e.file_path (existing ++ e.hunks)
        | none => mapSet m e.file_path e.hunks) m) p = mapGet m p := by
  revert hp
  induction unstaged generalizing m with
  | nil => intro _; rfl
  | cons e rest ih =>
    intro hp
    simp only [List.map_cons, List.mem_cons, not_or] at hp
    obtain ⟨h1, h2⟩ := hp
    simp only [List.foldl_cons]
    rw [ih _ h2]
    cases hg : mapGet m e.file_path with
    | none => simp [hg, mapGet_mapSet_ne _ _ _ _ fun he => h1 he.symm]
    | some ex => simp [hg, mapGet_mapSet_ne _ _ _ _ fun he => h1 he.symm]

theorem unstagedFold_mapGet (unstaged : List DiffFileEntry)
    (m : List (List Char × List Hunk)) (p : List Char) (hu : List Hunk)
    (hnd : (unstaged.map DiffFileEntry.file_path).Nodup)
    (hmem : DiffFileEntry.mk p hu ∈ unstaged) :
    mapGet (unstaged.foldl
      (fun m e =>
        match mapGet m e.file_path with
        | some existing => mapSet m e.file_path (existing ++ e.hunks)
        | none => mapSet m e.file_path e.hunks) m) p =
      some ((mapGet m p).getD [] ++ hu) := by
  revert hnd hmem
  induction unstaged generalizing m with
  | nil => intro _ hmem; cases hmem
  | cons e rest ih =>
    intro hnd hmem
    simp only [List.map_cons, List.nodup_cons] at hnd
    obtain ⟨hnd1, hnd2⟩ := hnd
    simp only [List.foldl_cons]
    rcases List.mem_cons.mp hmem with rfl | hmem2
    · rw [unstagedFold_preserve rest _ p hnd1]
      cases hg : mapGet m p with
      | none => simp [hg, mapGet_mapSet_self]
      | some ex => simp [hg, mapGet_mapSet_self]
    · have hpmem : p ∈ rest.map DiffFileEntry.file_path :=
        List.mem_map_of_mem DiffFileEntry.file_path hmem2
      have hne : e.file_path ≠ p := fun he => by
        rw [he] at hnd1
        exact hnd1 hpmem
      have hstep : mapGet
          (match mapGet m e.file_path with
           | some existing => mapSet m e.file_path (existing ++ e.hunks)
           | none => mapSet m e.file_path e.hunks) p = mapGet m p := by
        cases hg : mapGet m e.file_path with
        | none => simp [hg, mapGet_mapSet_ne _ _ _ _ hne]
        | some ex => simp [hg, mapGet_mapSet_ne _ _ _ _ hne]
      rw [ih _ hnd2 hmem2, hstep]

theorem assignIds_mem (m : List (List Char × List Hunk)) (ps : List (List Char))
    (n : Nat) (p : List Char) (v : List Hunk)
    (hp : p ∈ ps) (hg : mapGet m p = some v) :
    ∃ ident, Change.mk ident p v ∈ assignIds m ps n := by
  revert hp
  induction ps generalizing n with
  | nil => intro hp; cases hp
  | cons q rest ih =>
    intro hp
    rcases List.mem_cons.mp hp with rfl | hp2
    · refine ⟨str "change-" ++ natChars n, ?_⟩
      simp [assignIds, hg]
    · obtain ⟨ident, hmem⟩ := ih (n + 1) hp2
      exact ⟨ident, List.mem_cons_of_mem _ hmem⟩

/-- C7: for a path in both parse results (each carrying pairwise-distinct
paths, as one chunk per file yields), the merged Change holds the staged
hunks followed by the unstaged hunks in that order; a path in only one
input contributes that input's hunks unchanged. -/
theorem merge_staged_then_unstaged (staged unstaged : List DiffFileEntry) (p : List Char)
    (hndS : (staged.map DiffFileEntry.file_path).Nodup)
    (hndU : (unstaged.map DiffFileEntry.file_path).Nodup) :
    (∀ hs hu, DiffFileEntry.mk p hs ∈ staged → DiffFileEntry.mk p hu ∈ unstaged →
      ∃ ident, Change.mk ident p (hs ++ hu) ∈ assembleChanges staged unstaged) ∧
    (∀ hs, DiffFileEntry.mk p hs ∈ staged → p ∉ unstaged.map DiffFileEntry.file_path →
      ∃ ident, Change.mk ident p hs ∈ assembleChanges staged unstaged) ∧
    (∀ hu, DiffFileEntry.mk p hu ∈ unstaged → p ∉ staged.map DiffFileEntry.file_path →
      ∃ ident, Change.mk ident p hu ∈ assembleChanges staged unstaged) := by
  have hasm : ∀ v : List Hunk,
      mapGet (unstaged.foldl
        (fun m e =>
          match mapGet m e.file_path with
          | some existing => mapSet m e.file_path (existing ++ e.hunks)
          | none => mapSet m e.file_path e.hunks)
        (staged.foldl (fun m e => mapSet m e.file_path e.hunks) [])) p = some v →
      ∃ ident, Change.mk ident p v ∈ assembleChanges staged unstaged := by
    intro v hv
    have hkeys := mapGet_mem_keys _ _ _ hv
    have hmemS := (List.perm_insertionSort collationLe _).mem_iff.mpr hkeys
    exact assignIds_mem _ _ 1 p v hmemS hv
  refine ⟨fun hs hu hmemS hmemU => ?_, fun hs hmemS hnotU => ?_,
    fun hu hmemU hnotS => ?_⟩
  · have h1 : mapGet (staged.foldl (fun m e => mapSet m e.file_path e.hunks) []) p =
        some hs := stagedFold_mapGet staged [] p hs hndS hmemS
    have h2 := unstagedFold_mapGet unstaged
      (staged.foldl (fun m e => mapSet m e.file_path e.hunks) []) p hu hndU hmemU
    rw [h1] at h2
    simp only [Option.getD_some] at h2
    exact hasm _ h2
  · have h1 : mapGet (staged.foldl (fun m e => mapSet m e.file_path e.hunks) []) p =
        some hs := stagedFold_mapGet staged [] p hs hndS hmemS
    have h2 := unstagedFold_preserve unstaged
      (staged.foldl (fun m e => mapSet m e.file_path e.hunks) []) p hnotU
    rw [h1] at h2
    exact hasm _ h2
  · have h1 : mapGet (staged.foldl (fun m e => mapSet m e.file_path e.hunks) []) p =
        none := by
      rw [stagedFold_preserve staged [] p hnotS]
      rfl
    have h2 := unstagedFold_mapGet unstaged
      (staged.foldl (fun m e => mapSet m e.file_path e.hunks) []) p hu hndU hmemU
    rw [h1] at h2
    simp only [Option.getD_none, List.nil_append] at h2
    exact hasm _ h2

theorem merge_staged_then_unstaged_witness :
    (([({ file_path := str "f.txt",
          hunks := [{ old_start := 1, old_lines := 1, new_start := 1, new_lines := 1,
                      header := str "@@ -1 +1 @@", lines := [str "+a"] }] } :
        DiffFileEntry)].map DiffFileEntry.file_path).Nodup) ∧
    (∃ ident, Change.mk ident (str "f.txt")
        ([{ old_start := 1, old_lines := 1, new_start := 1, new_lines := 1,
            header := str "@@ -1 +1 @@", lines := [str "+a"] }] ++
         [{ old_start := 2, old_lines := 1, new_start := 2, new_lines := 1,
            header := str "@@ -2 +2 @@", lines := [str "+b"] }]) ∈
      assembleChanges
        [{ file_path := str "f.txt",
           hunks := [{ old_start := 1, old_lines := 1, new_start := 1, new_lines := 1,
                       header := str "@@ -1 +1 @@", lines := [str "+a"] }] }]
        [{ file_path := str "f.txt",
           hunks := [{ old_start := 2, old_lines := 1, new_start := 2, new_lines := 1,
                       header := str "@@ -2 +2 @@", lines := [str "+b"] }] }]) :=
  ⟨by decide,
    (merge_staged_then_unstaged
        [{ file_path := str "f.txt",
           hunks := [{ old_start := 1, old_lines := 1, new_start := 1, new_lines := 1,
                       header := str "@@ -1 +1 @@", lines := [str "+a"] }] }]
        [{ file_path := str "f.txt",
           hunks := [{ old_start := 2, old_lines := 1, new_start := 2, new_lines := 1,
                       header := str "@@ -2 +2 @@", lines := [str "+b"] }] }]
        (str "f.txt") (by decide) (by decide)).1
      [{ old_start := 1, old_lines := 1, new_start := 1, new_lines := 1,
         header := str "@@ -1 +1 @@", lines := [str "+a"] }]
      [{ old_start := 2, old_lines := 1, new_start := 2, new_lines := 1,
         header := str "@@ -2 +2 @@", lines := [str "+b"] }]
      (by decide) (by decide)⟩

/-- C8: when the identifier resolution yields exactly one change and no
unknowns, the handler returns exactly one group carrying that change's
identifier, and its outcome does not depend on the embedding provider (no
embedding or similarity computation is consulted). -/
theorem group_changes_single (assembled : List Change)
    (embed : List (List Char) → List (List Float)) (change_ids : List (List Char))
    (c : Change) (h : resolveChangeIds assembled change_ids = ([c], [])) :
    groupChangesTool assembled embed change_ids =
      GroupsOut.ok [{ id := str "group-1", change_ids := [c.id],
                      summary := str "Changes in " ++ c.file_path }] ∧
    ∀ embed2, groupChangesTool assembled embed change_ids =
      groupChangesTool assembled embed2 change_ids := by
  have hmain : ∀ e2 : List (List Char) → List (List Float),
      groupChangesTool assembled e2 change_ids =
        GroupsOut.ok [{ id := str "group-1", change_ids := [c.id],
                        summary := str "Changes in " ++ c.file_path }] := by
    intro e2
    unfold groupChangesTool
    rw [h]
    rfl
  exact ⟨hmain embed, fun e2 => (hmain embed).trans (hmain e2).symm⟩

theorem group_changes_single_witness :
    resolveChangeIds
        [({ id := str "change-1", file_path := str "a.txt", hunks := [] } : Change)]
        [str "change-1"] =
      ([{ id := str "change-1", file_path := str "a.txt", hunks := [] }], []) ∧
    groupChangesTool
        [{ id := str "change-1", file_path := str "a.txt", hunks := [] }]
        (fun _ => []) [str "change-1"] =
      GroupsOut.ok [{ id := str "group-1", change_ids := [str "change-1"],
                      summary := str "Changes in " ++ str "a.txt" }] :=
  ⟨by decide,
    (group_changes_single
        [{ id := str "change-1", file_path := str "a.txt", hunks := [] }]
        (fun _ => []) [str "change-1"]
        { id := str "change-1", file_path := str "a.txt", hunks := [] }
        (by decide)).1⟩
